import Mathlib

/-!
# Verification of the extractify post-processing core

Shallow embedding of the two post-processor modules of the repository
(`src/lib/postProcessor.ts`, geometric variant and keyword-slice variant)
together with proofs about them.

Modelling conventions:
* JS strings are modelled as `List Char` (`Str`); a JS string index is the
  `Nat` position in that list.  All characters appearing in the catalogs and
  in the inputs considered here are single UTF-16 code units, so `Nat`
  positions agree with JS string indices.
* JS numbers (which are IEEE doubles in the source, used here only on
  coordinate values where every operation performed — sums, differences,
  halving, `min`/`max`, `abs`, comparisons — is exact) are modelled as `ℚ`.
* `Array.prototype.sort` is modelled as a stable insertion sort `jsSort`;
  ECMAScript requires the sort to be stable, and for a consistent comparator
  the result is the unique stable order.  The comparator functions themselves
  are translated literally.
* `TextItem` keeps the fields the source reads: `str`, and the baseline
  coordinates `transform[4]` (`x`) and `transform[5]` (`y`).  The source
  compares text items by object identity (`===`); distinct fragments are
  modelled as structurally distinct values.
-/

namespace Extractify

/-- JS strings, as lists of UTF-16 code units. -/
abbrev Str := List Char

/-- Whitespace test used to model the JS `\s` character class (the inputs of
interest only contain ASCII whitespace). -/
def isWsChar (c : Char) : Bool :=
  c = ' ' || c = '\t' || c = '\n' || c = '\r' || c = '\x0b' || c = '\x0c'

/-- Model of `String.prototype.trim`. -/
def jsTrim (s : Str) : Str :=
  ((s.dropWhile isWsChar).reverse.dropWhile isWsChar).reverse

/-- `pat` occurs at the beginning of `s`. -/
def isPrefixList : Str → Str → Bool
  | [], _ => true
  | _ :: _, [] => false
  | a :: p, b :: s => a == b && isPrefixList p s

/-- Model of `String.prototype.indexOf`: index of the first occurrence of
`pat` in `s`, if any. -/
def strIndexOf (s pat : Str) : Option Nat :=
  if isPrefixList pat s then some 0
  else
    match s with
    | [] => none
    | _ :: t => (strIndexOf t pat).map (· + 1)

/-- Model of `String.prototype.includes`. -/
def containsSub (s pat : Str) : Bool :=
  (strIndexOf s pat).isSome

/-- Model of `str.replace(/\s+/g, '')`: remove every whitespace character. -/
def stripWs (s : Str) : Str :=
  s.filter (fun c => !isWsChar c)

/-- Model of `str.replace(/\s+/g, ' ')`: collapse every maximal whitespace
run (of length ≥ 1) to a single space (each whitespace character merges with
a following whitespace character). -/
def collapseWsAll : Str → Str
  | [] => []
  | [c] => if isWsChar c then [' '] else [c]
  | a :: b :: rest =>
    if isWsChar a && isWsChar b then collapseWsAll (b :: rest)
    else if isWsChar a then ' ' :: collapseWsAll (b :: rest)
    else a :: collapseWsAll (b :: rest)

/-- Worker for `collapseWsRuns`; the flag records whether the scan is inside
a whitespace run that has already been replaced by a space. -/
def collapseWsRunsAux : Bool → Str → Str
  | _, [] => []
  | true, c :: rest =>
    if isWsChar c then collapseWsRunsAux true rest
    else c :: collapseWsRunsAux false rest
  | false, c :: rest =>
    if isWsChar c then
      match rest with
      | [] => [c]
      | d :: _ =>
        if isWsChar d then ' ' :: collapseWsRunsAux true rest
        else c :: collapseWsRunsAux false rest
    else c :: collapseWsRunsAux false rest

/-- Model of `str.replace(/\s{2,}/g, ' ')`: collapse every maximal whitespace
run of length ≥ 2 to a single space; a lone whitespace character is kept
unchanged. -/
def collapseWsRuns (s : Str) : Str := collapseWsRunsAux false s

/-- Worker for `splitWs`: `cur` is the (reversed) field being read and the
flag records whether the scan is inside a whitespace run (whose field has
already been emitted). -/
def splitWsAux : Str → Str → Bool → List Str
  | [], cur, _ => [cur.reverse]
  | c :: rest, cur, inWs =>
    if isWsChar c then
      if inWs then splitWsAux rest [] true
      else cur.reverse :: splitWsAux rest [] true
    else splitWsAux rest (c :: cur) false

/-- Model of `String.prototype.split(/\s+/)`: fields between maximal
whitespace runs; a leading (or trailing) run contributes a leading (or
trailing) empty field, exactly as in JS. -/
def splitWs (s : Str) : List Str := splitWsAux s [] false

/-- Model of `String.prototype.substring(a, b)` for `a ≤ b`: the characters
at positions `a, …, b-1`. -/
def substringJS (s : Str) (a b : Nat) : Str :=
  (s.take b).drop a

/-- Model of `str.replace(pat, '')` for a plain-string pattern: remove the
first occurrence of `pat` from `s`, if any. -/
def replaceFirst (s pat : Str) : Str :=
  match strIndexOf s pat with
  | none => s
  | some i => s.take i ++ s.drop (i + pat.length)

/-- Model of `String.prototype.toLowerCase` (ASCII; the Korean characters in
the catalogs have no case). -/
def toLowerStr (s : Str) : Str := s.map Char.toLower

/-- Model of `array.join(' ')`. -/
def joinSpace (xs : List Str) : Str := List.intercalate [' '] xs

/-- Model of `array.join('\n')`. -/
def joinLines (xs : List Str) : Str := List.intercalate ['\n'] xs

/-- One insertion step of the stable sort: place `a` before the first
element `b` with `le a b`. -/
def insertOrd (le : α → α → Bool) (a : α) : List α → List α
  | [] => [a]
  | b :: t => if le a b then a :: b :: t else b :: insertOrd le a t

/-- Model of `Array.prototype.sort` with comparator `cmp`, as the stable
insertion sort for `le a b := cmp a b ≤ 0`.  ECMAScript guarantees a stable
sort; for a consistent comparator this is its unique result. -/
def jsSort (le : α → α → Bool) : List α → List α
  | [] => []
  | a :: t => insertOrd le a (jsSort le t)

end Extractify

namespace Extractify

/-! ## Geometric post-processor (`postProcessor.ts`, positional variant) -/

/-- A PDF.js text item, restricted to the fields the source reads:
`item.str`, `item.transform[4]` (x) and `item.transform[5]` (y). -/
structure TextItem where
  str : Str
  x : ℚ
  y : ℚ
deriving DecidableEq

/-- `PROPERTY_OVERVIEW_CONFIG.ROW_TOLERANCE`. -/
def ROW_TOLERANCE : ℚ := 15

/-- `PROPERTY_OVERVIEW_CONFIG.KEY_EXCLUSION_TOLERANCE`. -/
def KEY_EXCLUSION_TOLERANCE : ℚ := 8

/-- `PROPERTY_OVERVIEW_CONFIG.MIN_VALUE_OFFSET`. -/
def MIN_VALUE_OFFSET : ℚ := 20

/-- `PROPERTY_OVERVIEW_CONFIG.STANDARD_KEYS`. -/
def STANDARD_KEYS : List Str :=
  ["주소".data, "교통".data, "연면적".data, "빌딩규모".data, "준공연도".data,
   "전용율".data, "기준층 면적".data, "천정고".data, "엘리베이터".data,
   "주차사항".data, "특이사항".data]

/-- `interface KeyLocation`. -/
structure KeyLocation where
  item : TextItem
  y : ℚ
  x : ℚ
deriving DecidableEq

/-- `interface RowBoundary`. -/
structure RowBoundary where
  key : Str
  y : ℚ
  minY : ℚ
  maxY : ℚ
deriving DecidableEq

/-- `interface ExtractedValue`. -/
structure ExtractedValue where
  text : Str
  x : ℚ
  y : ℚ
deriving DecidableEq

/-- Strategy 1 of `findKeyInItems`: `item.str.includes(key)`. -/
def matchExact (key : Str) (item : TextItem) : Bool :=
  containsSub item.str key

/-- Strategy 2 of `findKeyInItems`: whitespace-stripped substring match. -/
def matchNormalized (key : Str) (item : TextItem) : Bool :=
  containsSub (stripWs item.str) (stripWs key)

/-- Strategy 3 of `findKeyInItems`: trimmed item text equals or contains the
first whitespace-separated word of the key. -/
def matchFirstWord (key : Str) (item : TextItem) : Bool :=
  let itemStr := jsTrim item.str
  let firstKeyword := (splitWs key).headD []
  itemStr == firstKeyword || containsSub itemStr firstKeyword

/-- `findKeyInItems`: three matching strategies tried in order, first
success wins; strategy 3 only applies to keys that split into more than one
word. -/
def findKeyInItems (items : List TextItem) (key : Str) : Option KeyLocation :=
  match items.find? (matchExact key) with
  | some keyItem => some ⟨keyItem, keyItem.y, keyItem.x⟩
  | none =>
    match items.find? (matchNormalized key) with
    | some keyItem => some ⟨keyItem, keyItem.y, keyItem.x⟩
    | none =>
      if (splitWs key).length > 1 then
        (items.find? (matchFirstWord key)).map (fun keyItem => ⟨keyItem, keyItem.y, keyItem.x⟩)
      else none

/-- `calculateRowBoundaries`: for each row `i`, `maxY` is the midpoint with
the previous row capped at `y + ROW_TOLERANCE` (or `y + ROW_TOLERANCE` for
the first row), and `minY` is the midpoint with the next row floored at
`y - ROW_TOLERANCE` (or `y - ROW_TOLERANCE` for the last row).  The source
mutates the array in place; the model returns the updated list. -/
def calculateRowBoundaries (keyRows : List RowBoundary) : List RowBoundary :=
  keyRows.mapIdx fun i r =>
    { r with
      maxY :=
        match (if 0 < i then keyRows[i-1]? else none) with
        | some prevRow => min ((r.y + prevRow.y) / 2) (r.y + ROW_TOLERANCE)
        | none => r.y + ROW_TOLERANCE
      minY :=
        match keyRows[i+1]? with
        | some nextRow => max ((r.y + nextRow.y) / 2) (r.y - ROW_TOLERANCE)
        | none => r.y - ROW_TOLERANCE }

/-- The `isKeyComponent` test of `extractRowValues`: the trimmed item text
equals or contains the first word of the row key. -/
def isKeyComponent (firstKeyWord : Str) (item : TextItem) : Bool :=
  let itemStr := jsTrim item.str
  itemStr == firstKeyWord || containsSub itemStr firstKeyWord

/-- The filter applied by the loop of `extractRowValues`: an item is kept
iff it is not the key item, is not a key echo within the exclusion
tolerance, lies inside the row band and starts right of the key. -/
def keepItem (row : RowBoundary) (keyLocation : KeyLocation) (item : TextItem) : Bool :=
  let keyWidth : ℚ := (stripWs row.key).length * 8
  let firstKeyWord := (splitWs row.key).headD []
  !(item == keyLocation.item) &&
  !(isKeyComponent firstKeyWord item && decide (|item.y - row.y| ≤ KEY_EXCLUSION_TOLERANCE)) &&
  (decide (item.y ≤ row.maxY) && decide (item.y ≥ row.minY)) &&
  decide (item.x > keyLocation.x + keyWidth + MIN_VALUE_OFFSET)

/-- `extractRowValues`: the kept items, as `ExtractedValue`s. -/
def extractRowValues (items : List TextItem) (row : RowBoundary)
    (keyLocation : KeyLocation) : List ExtractedValue :=
  (items.filter (keepItem row keyLocation)).map fun item => ⟨item.str, item.x, item.y⟩

/-- The comparator of `sortValuesInReadingOrder`, returning the JS number
whose sign decides the order. -/
def readingCmp (a b : ExtractedValue) : ℚ :=
  if |a.y - b.y| > 3 then b.y - a.y else a.x - b.x

/-- `sortValuesInReadingOrder`. -/
def sortValuesInReadingOrder (values : List ExtractedValue) : List ExtractedValue :=
  jsSort (fun a b => decide (readingCmp a b ≤ 0)) values

/-- Step 1 of `parseTableByRows`: one `RowBoundary` per catalog key located
by `findKeyInItems`, with `minY`/`maxY` initialised to 0. -/
def locatedRows (items : List TextItem) (keys : List Str) : List RowBoundary :=
  keys.filterMap fun key =>
    (findKeyInItems items key).map fun keyLocation => ⟨key, keyLocation.y, 0, 0⟩

/-- Step 2 of `parseTableByRows`: `keyRows.sort((a, b) => b.y - a.y)`. -/
def sortRowsDesc (keyRows : List RowBoundary) : List RowBoundary :=
  jsSort (fun a b => decide (b.y - a.y ≤ 0)) keyRows

/-- The value text assembled for one row in step 4 of `parseTableByRows`. -/
def rowValueText (items : List TextItem) (row : RowBoundary)
    (keyLocation : KeyLocation) : Str :=
  jsTrim (joinSpace ((sortValuesInReadingOrder (extractRowValues items row keyLocation)).map (·.text)))

/-- Step 4 of `parseTableByRows`: the `results` record, as a partial map
from key to (non-empty) value text. -/
def tableResults (items : List TextItem) (keys : List Str) : Str → Option Str :=
  (calculateRowBoundaries (sortRowsDesc (locatedRows items keys))).foldl
    (fun results row =>
      match findKeyInItems items row.key with
      | none => results
      | some keyLocation =>
        let valueText := rowValueText items row keyLocation
        if valueText.isEmpty then results
        else fun k => if k == row.key then some valueText else results k)
    (fun _ => none)

/-- Step 5 of `parseTableByRows`: the line emitted for one catalog key
(`null` when the key has no truthy value). -/
def tableLine (items : List TextItem) (keys : List Str) (key : Str) : Option Str :=
  match tableResults items keys key with
  | some value => if value.isEmpty then none else some (key ++ ':' :: ' ' :: value)
  | none => none

/-- `parseTableByRows`. -/
def parseTableByRows (items : List TextItem) (keys : List Str) : Str :=
  if items.isEmpty then []
  else if (locatedRows items keys).isEmpty then joinSpace (items.map (·.str))
  else joinLines ((keys.map (tableLine items keys)).filterMap id)

/-- `SECTION_IDENTIFIERS` test: `/general|overview|정보/i`, applied to an
already-lowercased name. -/
def sectionMatch (s : Str) : Bool :=
  containsSub s "general".data || containsSub s "overview".data || containsSub s "정보".data

/-- `postProcessText` of the geometric post-processor. -/
def postProcessText (templateName : Str) (items : List TextItem) : Str :=
  if items.isEmpty then []
  else if sectionMatch (toLowerStr templateName) then parseTableByRows items STANDARD_KEYS
  else joinSpace ((items.map (·.str)).filter fun s => !(jsTrim s).isEmpty)

end Extractify

namespace Extractify

namespace KeywordSlice

/-! ## Keyword-slice post-processor (`postProcessor.ts`, text-only variant) -/

/-- One greedy repetition count for the regex `(?:[A-Z]\s)*`: the number of
leading (uppercase-letter, single-whitespace) pairs. -/
def countUpperWsPairs : Str → Nat
  | a :: b :: rest =>
    if ('A' ≤ a && a ≤ 'Z') && isWsChar b then countUpperWsPairs rest + 1 else 0
  | _ => 0

/-- Length of the match of `/(?:[A-Z]\s){5,}[A-Z]/` at the start of `s`, if
any.  The greedy engine takes the maximal repetition count `r`; if no
uppercase letter follows it backtracks one pair (whose own uppercase letter
then serves as the final `[A-Z]`), never below five repetitions. -/
def spacedHeaderMatchLen (s : Str) : Option Nat :=
  let r := countUpperWsPairs s
  if 5 ≤ r then
    if (s.drop (2 * r)).head?.any (fun c => 'A' ≤ c && c ≤ 'Z') then some (2 * r + 1)
    else if 6 ≤ r then some (2 * (r - 1) + 1)
    else none
  else none

/-- Worker for `removeSpacedHeaders`.  The fuel only bounds the recursion:
every deleted match has positive length (`spacedHeaderMatchLen_pos`), so
`length + 1` units of fuel always suffice and the first branch is never
taken. -/
def removeSpacedHeadersAux : Nat → Str → Str
  | 0, _ => []
  | _ + 1, [] => []
  | fuel + 1, c :: rest =>
    match spacedHeaderMatchLen (c :: rest) with
    | some n => removeSpacedHeadersAux fuel ((c :: rest).drop n)
    | none => c :: removeSpacedHeadersAux fuel rest

/-- `text.replace(spacedHeaderRegex, '')`: delete every (leftmost,
non-overlapping) match of the spaced-header regex. -/
def removeSpacedHeaders (s : Str) : Str := removeSpacedHeadersAux (s.length + 1) s

/-- `preCleanText`: strip spaced-out uppercase headers, collapse whitespace
runs of length ≥ 2 to one space, and trim. -/
def preCleanText (text : Str) : Str :=
  jsTrim (collapseWsRuns (removeSpacedHeaders text))

/-- The keyword parser compiles each catalog key with `new RegExp(key, 'g')`.
For the keys this module passes (and any key whose only regex metacharacters
are grouping parentheses around literal characters, such as
`'연면적(GFA)'`), the compiled regex matches exactly the key text with the
parentheses removed.  `jsRegexLiteral` is that literal. -/
def jsRegexLiteral (key : Str) : Str :=
  key.filter fun c => !(c = '(' || c = ')')

/-- `{ key, index }` entries collected by the keyword search. -/
structure FoundKey where
  key : Str
  index : Nat
deriving DecidableEq

/-- The `while ((match = regex.exec(text)) !== null)` loop: start indices of
the successive non-overlapping occurrences of `pat` in `text` from position
`pos` on, left to right.  (`fuel` only bounds the recursion; for a non-empty
`pat` each step advances by at least one position.  For an empty `pat` the
source loop would not terminate; the catalog keys are all non-empty.) -/
def execAllAux (pat text : Str) : Nat → Nat → List Nat
  | _, 0 => []
  | pos, fuel + 1 =>
    match strIndexOf (text.drop pos) pat with
    | none => []
    | some j => (pos + j) :: execAllAux pat text (pos + j + pat.length) fuel

/-- All match indices of the compiled key regex in `text`. -/
def execAll (pat text : Str) : List Nat :=
  if pat.isEmpty then [] else execAllAux pat text 0 (text.length + 1)

/-- Step 1 of `parseWithKeywords`: every occurrence of every catalog key,
in catalog order and, per key, in increasing index order. -/
def foundKeysRaw (primaryKeys : List Str) (text : Str) : List FoundKey :=
  primaryKeys.flatMap fun key => (execAll (jsRegexLiteral key) text).map fun i => ⟨key, i⟩

/-- `foundKeys.filter((v, i, a) => a.findIndex(t => t.key === v.key) === i)`:
keep an entry exactly when it is the first entry with its key. -/
def uniqueFoundKeys (l : List FoundKey) : List FoundKey :=
  (l.enum.filter fun p => l.findIdx (fun t => t.key == p.2.key) == p.1).map Prod.snd

/-- Step 2 of `parseWithKeywords`: `sort((a, b) => a.index - b.index)`. -/
def sortFoundByIndex (l : List FoundKey) : List FoundKey :=
  jsSort (fun a b => decide ((a.index : Int) - (b.index : Int) ≤ 0)) l

/-- The cleaned text of a `parseWithKeywords` run. -/
def kwCleaned (rawText : Str) : Str := preCleanText rawText

/-- The sorted, deduplicated key occurrences of a `parseWithKeywords` run. -/
def kwUnique (rawText : Str) (primaryKeys : List Str) : List FoundKey :=
  sortFoundByIndex (uniqueFoundKeys (foundKeysRaw primaryKeys (kwCleaned rawText)))

/-- Steps 3–4 of `parseWithKeywords` for one found key: slice the text from
this key's offset to the next key's offset (or the end), remove the first
occurrence of the key substring, trim, and strip one leading colon. -/
def sliceValue (text : Str) (uniq : List FoundKey) (i : Nat) (cur : FoundKey) : Str :=
  let endIndex := match uniq[i+1]? with
    | some next => next.index
    | none => text.length
  let value := jsTrim (replaceFirst (substringJS text cur.index endIndex) cur.key)
  if isPrefixList [':'] value then jsTrim (value.drop 1) else value

/-- The `results` record of `parseWithKeywords`. -/
def kwResults (text : Str) (uniq : List FoundKey) : Str → Option Str :=
  (uniq.mapIdx fun i cur => (cur.key, sliceValue text uniq i cur)).foldl
    (fun results p => fun k => if k == p.1 then some p.2 else results k)
    (fun _ => none)

/-- The `results` record computed by a full `parseWithKeywords` run. -/
def kwResultsOf (rawText : Str) (primaryKeys : List Str) : Str → Option Str :=
  kwResults (kwCleaned rawText) (kwUnique rawText primaryKeys)

/-- Step 5 of `parseWithKeywords`: the line emitted for one catalog key
(`null` when the key has no truthy value); the displayed value has its
whitespace runs collapsed and is trimmed. -/
def kwLine (rawText : Str) (primaryKeys : List Str) (key : Str) : Option Str :=
  match kwResultsOf rawText primaryKeys key with
  | some value =>
    if value.isEmpty then none
    else some (key ++ ':' :: ' ' :: jsTrim (collapseWsAll value))
  | none => none

/-- `parseWithKeywords`. -/
def parseWithKeywords (rawText : Str) (primaryKeys : List Str) : Str :=
  if (kwUnique rawText primaryKeys).isEmpty then kwCleaned rawText
  else joinLines ((primaryKeys.map (kwLine rawText primaryKeys)).filterMap id)

/-- The catalog of overview keys of the keyword-slice module. -/
def overviewKeys : List Str :=
  ["주소".data, "준공연도".data, "연면적(GFA)".data, "빌딩규모".data,
   "기준층면적".data, "전용률".data, "엘리베이터".data, "천장고".data,
   "위치".data, "주차".data]

/-- `postProcessText` of the keyword-slice post-processor. -/
def postProcessText (templateName : Str) (rawText : Str) : Str :=
  if sectionMatch (toLowerStr templateName) then parseWithKeywords rawText overviewKeys
  else preCleanText rawText

end KeywordSlice

/-! ## Definitions supporting the stated properties and the concrete inputs -/

/-- The pairwise reading-order property claimed for the sorter's output:
pairs more than 3 apart in `y` appear in strictly descending `y` order, and
pairs within 3 in `y` appear in (weakly) ascending `x` order. -/
def readingOrderOk (l : List ExtractedValue) : Prop :=
  ∀ i j (hi : i < l.length) (hj : j < l.length), i < j →
    (|l[i].y - l[j].y| > 3 → l[j].y < l[i].y) ∧
    (|l[i].y - l[j].y| ≤ 3 → l[i].x ≤ l[j].x)

/-- Per-key located offsets of the keyword parser on a (cleaned) text: the
indices of the dedup-filtered entries for that key. -/
def locatedOffsets (primaryKeys : List Str) (text : Str) (key : Str) : List Nat :=
  ((KeywordSlice.uniqueFoundKeys (KeywordSlice.foundKeysRaw primaryKeys text)).filter
    fun f => f.key == key).map (·.index)

/-- Concrete parse input for C1: two keys at `y = 100` and `y = 70` and one
value fragment exactly on the shared band boundary `y = 85`. -/
def c1items : List TextItem := [⟨"a".data, 0, 100⟩, ⟨"b".data, 0, 70⟩, ⟨"v".data, 1000, 85⟩]

def c1keys : List Str := ["a".data, "b".data]

def c1rowA : RowBoundary := ⟨"a".data, 100, 85, 115⟩

def c1rowB : RowBoundary := ⟨"b".data, 70, 55, 85⟩

def c1locA : KeyLocation := ⟨⟨"a".data, 0, 100⟩, 100, 0⟩

def c1locB : KeyLocation := ⟨⟨"b".data, 0, 70⟩, 70, 0⟩

def c1val : ExtractedValue := ⟨"v".data, 1000, 85⟩

def c5vals : List ExtractedValue := [⟨"p".data, 0, 0⟩, ⟨"q".data, 1, 3⟩, ⟨"r".data, 2, 6⟩]

end Extractify

namespace Extractify

/-! ## General lemmas about the stable sort -/

theorem spacedHeaderMatchLen_pos (s : Str) (n : Nat)
    (h : KeywordSlice.spacedHeaderMatchLen s = some n) : 0 < n := by
  unfold KeywordSlice.spacedHeaderMatchLen at h
  simp only at h
  split at h
  · split at h
    · simp at h; omega
    · split at h
      · simp at h; omega
      · simp at h
  · simp at h


theorem mem_insertOrd (le : α → α → Bool) (a x : α) (l : List α) :
    x ∈ insertOrd le a l ↔ x = a ∨ x ∈ l := by
  induction l with
  | nil => simp [insertOrd]
  | cons b t ih =>
    by_cases h : le a b = true
    · simp [insertOrd, h]
    · simp [insertOrd, h, ih]
      tauto

theorem mem_jsSort (le : α → α → Bool) (x : α) (l : List α) :
    x ∈ jsSort le l ↔ x ∈ l := by
  induction l with
  | nil => simp [jsSort]
  | cons a t ih => simp [jsSort, mem_insertOrd, ih]

theorem insertOrd_pairwise (le : α → α → Bool) (a : α) (l : List α)
    (htot : ∀ b ∈ l, le a b = true ∨ le b a = true)
    (htrans : ∀ b ∈ l, ∀ c ∈ l, le a b = true → le b c = true → le a c = true)
    (hl : l.Pairwise (fun x y => le x y = true)) :
    (insertOrd le a l).Pairwise (fun x y => le x y = true) := by
  induction l with
  | nil => simp [insertOrd]
  | cons b t ih =>
    rw [List.pairwise_cons] at hl
    by_cases h : le a b = true
    · rw [insertOrd, if_pos h]
      refine List.Pairwise.cons ?_ (List.Pairwise.cons hl.1 hl.2)
      intro x hx
      rcases List.mem_cons.mp hx with rfl | hx
      · exact h
      · exact htrans b (by simp) x (by simp [hx]) h (hl.1 x hx)
    · rw [insertOrd, if_neg h]
      refine List.Pairwise.cons ?_ ?_
      · intro x hx
        rcases (mem_insertOrd le a x t).mp hx with hx | hx
        · subst hx
          rcases htot b (by simp) with hb | hb
          · exact absurd hb h
          · exact hb
        · exact hl.1 x hx
      · exact ih (fun c hc => htot c (by simp [hc]))
          (fun c hc d hd => htrans c (by simp [hc]) d (by simp [hd])) hl.2

theorem jsSort_pairwise (le : α → α → Bool) (l : List α)
    (htot : ∀ a ∈ l, ∀ b ∈ l, le a b = true ∨ le b a = true)
    (htrans : ∀ a ∈ l, ∀ b ∈ l, ∀ c ∈ l, le a b = true → le b c = true → le a c = true) :
    (jsSort le l).Pairwise (fun x y => le x y = true) := by
  induction l with
  | nil => simp [jsSort]
  | cons a t ih =>
    rw [jsSort]
    refine insertOrd_pairwise le a (jsSort le t) ?_ ?_ ?_
    · intro b hb
      exact htot a (by simp) b (by simp [(mem_jsSort le b t).mp hb])
    · intro b hb c hc hab hbc
      exact htrans a (by simp) b (by simp [(mem_jsSort le b t).mp hb])
        c (by simp [(mem_jsSort le c t).mp hc]) hab hbc
    · exact ih (fun x hx y hy => htot x (by simp [hx]) y (by simp [hy]))
        (fun x hx y hy z hz => htrans x (by simp [hx]) y (by simp [hy]) z (by simp [hz]))

/-- The rows sorted by `sortRowsDesc` are pairwise in descending `y` order. -/
theorem sortRowsDesc_pairwise (keyRows : List RowBoundary) :
    (sortRowsDesc keyRows).Pairwise (fun a b => b.y ≤ a.y) := by
  have h := jsSort_pairwise (fun a b : RowBoundary => decide (b.y - a.y ≤ 0)) keyRows
    (fun a _ b _ => by
      rcases le_total b.y a.y with h | h
      · left; simpa [sub_nonpos] using h
      · right; simpa [sub_nonpos] using h)
    (fun a _ b _ c _ hab hbc => by
      simp only [decide_eq_true_eq, sub_nonpos] at *
      exact le_trans hbc hab)
  exact (List.Pairwise.imp (fun h => by simpa [sub_nonpos] using h) h)

/-! ## Lemmas about the row-boundary computation -/

theorem calcBoundaries_length (keyRows : List RowBoundary) :
    (calculateRowBoundaries keyRows).length = keyRows.length := by
  simp [calculateRowBoundaries]

/-- Index-wise description of `calculateRowBoundaries`: each output row keeps
its key and `y`, its `maxY` is the midpoint with the previous row capped at
`y + ROW_TOLERANCE` (just `y + ROW_TOLERANCE` for the first row), and its
`minY` is the midpoint with the next row floored at `y - ROW_TOLERANCE`
(just `y - ROW_TOLERANCE` for the last row). -/
theorem calcBoundaries_getElem (rows : List RowBoundary) (i : Nat) (hi : i < rows.length) :
    (calculateRowBoundaries rows)[i]? = some
      { key := rows[i].key
        y := rows[i].y
        maxY :=
          if 0 < i then
            min ((rows[i].y + rows[i-1].y) / 2) (rows[i].y + ROW_TOLERANCE)
          else rows[i].y + ROW_TOLERANCE
        minY :=
          if h : i + 1 < rows.length then
            max ((rows[i].y + rows[i+1].y) / 2) (rows[i].y - ROW_TOLERANCE)
          else rows[i].y - ROW_TOLERANCE } := by
  rw [calculateRowBoundaries, List.getElem?_mapIdx, List.getElem?_eq_getElem hi]
  simp only [Option.map_some']
  congr 1
  by_cases h0 : 0 < i
  · by_cases h1 : i + 1 < rows.length
    · simp [h0, h1, List.getElem?_eq_getElem (show i - 1 < rows.length by omega),
        List.getElem?_eq_getElem h1]
    · simp [h0, h1, List.getElem?_eq_getElem (show i - 1 < rows.length by omega),
        List.getElem?_eq_none (show rows.length ≤ i + 1 by omega)]
  · by_cases h1 : i + 1 < rows.length
    · simp [h0, h1, List.getElem?_eq_getElem h1]
    · simp [h0, h1, List.getElem?_eq_none (show rows.length ≤ i + 1 by omega)]

/-- Bands of two rows `i < j` never properly overlap: the later (lower) row's
upper bound is at most the earlier (upper) row's lower bound. -/
theorem calcBoundaries_disjoint (rows : List RowBoundary)
    (hs : rows.Pairwise (fun a b => b.y ≤ a.y)) (i j : Nat)
    (hij : i < j) (hj : j < rows.length) (ri rj : RowBoundary)
    (h1 : (calculateRowBoundaries rows)[i]? = some ri)
    (h2 : (calculateRowBoundaries rows)[j]? = some rj) :
    rj.maxY ≤ ri.minY := by
  have hi : i < rows.length := lt_trans hij hj
  rw [calcBoundaries_getElem rows i hi] at h1
  rw [calcBoundaries_getElem rows j hj] at h2
  have hdesc := List.pairwise_iff_getElem.mp hs
  simp only [Option.some.injEq] at h1 h2
  have hy1 : rows[j].y ≤ rows[i+1].y := by
    rcases eq_or_lt_of_le (Nat.succ_le_of_lt hij) with he | hl
    · have hjj : j = i + 1 := by omega
      subst hjj
      exact le_refl _
    · exact hdesc (i+1) j (by omega) hj hl
  have hy2 : rows[j-1].y ≤ rows[i].y := by
    rcases eq_or_lt_of_le (show i ≤ j - 1 by omega) with he | hl
    · subst he
      exact le_refl _
    · exact hdesc i (j-1) hi (by omega) hl
  have hminY : ri.minY = max ((rows[i].y + rows[i+1].y) / 2) (rows[i].y - ROW_TOLERANCE) := by
    rw [← h1]
    simp [show i + 1 < rows.length by omega]
  have hmaxY : rj.maxY = min ((rows[j].y + rows[j-1].y) / 2) (rows[j].y + ROW_TOLERANCE) := by
    rw [← h2]
    simp [show 0 < j by omega]
  rw [hminY, hmaxY]
  have hmid : (rows[j].y + rows[j-1].y) / 2 ≤ (rows[i].y + rows[i+1].y) / 2 := by linarith
  exact le_trans (min_le_left _ _) (le_trans hmid (le_max_left _ _))

/-- C2: for a list of row descriptors sorted by descending `y`,
`calculateRowBoundaries` assigns row `i` the `maxY` `min(midpoint with
previous row, y + 15)` (or `y + 15` with no previous row) and the `minY`
`max(midpoint with next row, y - 15)` (or `y - 15` with no next row). -/
theorem claim2_calculateRowBoundaries_formulas (rows : List RowBoundary)
    (hs : rows.Pairwise (fun a b => b.y ≤ a.y)) (i : Nat) (hi : i < rows.length) :
    (calculateRowBoundaries rows)[i]? = some
      { key := rows[i].key
        y := rows[i].y
        maxY :=
          if 0 < i then
            min ((rows[i].y + rows[i-1].y) / 2) (rows[i].y + ROW_TOLERANCE)
          else rows[i].y + ROW_TOLERANCE
        minY :=
          if h : i + 1 < rows.length then
            max ((rows[i].y + rows[i+1].y) / 2) (rows[i].y - ROW_TOLERANCE)
          else rows[i].y - ROW_TOLERANCE } :=
  calcBoundaries_getElem rows i hi

/-- Witness for C2 on a concrete two-row input. -/
theorem claim2_witness :
    (calculateRowBoundaries
      [⟨"a".data, 100, 0, 0⟩, ⟨"b".data, 70, 0, 0⟩])[1]? =
      some ⟨"b".data, 70, 55, 85⟩ := by
  have h := claim2_calculateRowBoundaries_formulas
    [⟨"a".data, 100, 0, 0⟩, ⟨"b".data, 70, 0, 0⟩]
    (by simp [List.pairwise_cons]; norm_num) 1 (by norm_num)
  rw [h]
  norm_num [ROW_TOLERANCE]

/-- C3: after boundary calculation on a descending-`y`-sorted list, every
descriptor's band contains its own anchor: `minY ≤ y ≤ maxY`. -/
theorem claim3_band_contains_anchor (rows : List RowBoundary)
    (hs : rows.Pairwise (fun a b => b.y ≤ a.y)) :
    ∀ r ∈ calculateRowBoundaries rows, r.minY ≤ r.y ∧ r.y ≤ r.maxY := by
  intro r hr
  obtain ⟨i, hi, hget⟩ := List.getElem_of_mem hr
  have hi' : i < rows.length := by
    rw [calcBoundaries_length] at hi
    exact hi
  have h := calcBoundaries_getElem rows i hi'
  rw [List.getElem?_eq_getElem hi, hget] at h
  have hdesc := List.pairwise_iff_getElem.mp hs
  simp only [Option.some.injEq] at h
  subst h
  have hT : (0:ℚ) < ROW_TOLERANCE := by norm_num [ROW_TOLERANCE]
  dsimp only
  constructor
  · split
    · rename_i hnext
      have hy : rows[i+1].y ≤ rows[i].y := hdesc i (i+1) hi' hnext (by omega)
      apply max_le <;> linarith
    · linarith
  · split
    · rename_i hprev
      have hy : rows[i].y ≤ rows[i-1].y := hdesc (i-1) i (by omega) hi' (by omega)
      apply le_min <;> linarith
    · linarith

/-- Witness for C3 on a concrete two-row input. -/
theorem claim3_witness : ((55:ℚ) ≤ 70 ∧ (70:ℚ) ≤ 85) := by
  have hmem : (⟨"b".data, 70, 55, 85⟩ : RowBoundary) ∈
      calculateRowBoundaries [⟨"a".data, 100, 0, 0⟩, ⟨"b".data, 70, 0, 0⟩] := by
    have he : calculateRowBoundaries [⟨"a".data, 100, 0, 0⟩, ⟨"b".data, 70, 0, 0⟩] =
        [⟨"a".data, 100, 85, 115⟩, ⟨"b".data, 70, 55, 85⟩] := by
      simp [calculateRowBoundaries, ROW_TOLERANCE]
      norm_num
    rw [he]
    simp
  exact claim3_band_contains_anchor _ (by simp [List.pairwise_cons]; norm_num) _ hmem

/-! ## Lemmas about row value extraction -/

theorem mem_extractRowValues (items : List TextItem) (row : RowBoundary)
    (keyLocation : KeyLocation) (v : ExtractedValue) :
    v ∈ extractRowValues items row keyLocation ↔
      ∃ item ∈ items, keepItem row keyLocation item = true ∧ v = ⟨item.str, item.x, item.y⟩ := by
  simp only [extractRowValues, List.mem_map, List.mem_filter]
  constructor
  · rintro ⟨item, ⟨hmem, hkeep⟩, rfl⟩
    exact ⟨item, hmem, hkeep, rfl⟩
  · rintro ⟨item, hmem, hkeep, rfl⟩
    exact ⟨item, ⟨hmem, hkeep⟩, rfl⟩

theorem keepItem_bounds (row : RowBoundary) (keyLocation : KeyLocation) (item : TextItem)
    (h : keepItem row keyLocation item = true) :
    row.minY ≤ item.y ∧ item.y ≤ row.maxY := by
  simp only [keepItem, Bool.and_eq_true, decide_eq_true_eq] at h
  exact ⟨h.1.2.2, h.1.2.1⟩

/-- C1 (amended): in one positional parse — rows sorted by descending `y`,
then boundaries computed — a fragment can pass two distinct rows' inclusion
tests only when its `y` lies exactly on the shared boundary of the two
bands: the value's `y` then equals the earlier row's `minY`, which equals
the later row's `maxY`.  Fragments anywhere else in a band are attributed
to at most one row. -/
theorem claim1_overlap_only_at_shared_edge (items : List TextItem)
    (keyRows : List RowBoundary) (i j : Nat) (hij : i < j)
    (hj : j < (calculateRowBoundaries (sortRowsDesc keyRows)).length)
    (ri rj : RowBoundary)
    (h1 : (calculateRowBoundaries (sortRowsDesc keyRows))[i]? = some ri)
    (h2 : (calculateRowBoundaries (sortRowsDesc keyRows))[j]? = some rj)
    (locI locJ : KeyLocation) (v : ExtractedValue)
    (hvi : v ∈ extractRowValues items ri locI)
    (hvj : v ∈ extractRowValues items rj locJ) :
    v.y = ri.minY ∧ rj.maxY = ri.minY := by
  have hsorted := sortRowsDesc_pairwise keyRows
  have hj' : j < (sortRowsDesc keyRows).length := by
    rw [calcBoundaries_length] at hj
    exact hj
  have hdisj := calcBoundaries_disjoint (sortRowsDesc keyRows) hsorted i j hij hj' ri rj h1 h2
  obtain ⟨itemI, _, hkeepI, rfl⟩ := (mem_extractRowValues items ri locI _).mp hvi
  obtain ⟨itemJ, _, hkeepJ, he⟩ := (mem_extractRowValues items rj locJ _).mp hvj
  have hbI := keepItem_bounds ri locI itemI hkeepI
  have hbJ := keepItem_bounds rj locJ itemJ hkeepJ
  have hyy : itemI.y = itemJ.y := congrArg ExtractedValue.y he
  constructor
  · dsimp only
    linarith [hbI.1, hbI.2, hbJ.1, hbJ.2]
  · linarith [hbI.1, hbI.2, hbJ.1, hbJ.2]

theorem c1rows_eval :
    calculateRowBoundaries (sortRowsDesc (locatedRows c1items c1keys)) = [c1rowA, c1rowB] := by
  have hloc : locatedRows c1items c1keys =
      [⟨"a".data, 100, 0, 0⟩, ⟨"b".data, 70, 0, 0⟩] := by decide
  rw [hloc]
  have hsort : sortRowsDesc [(⟨"a".data, 100, 0, 0⟩ : RowBoundary), ⟨"b".data, 70, 0, 0⟩] =
      [⟨"a".data, 100, 0, 0⟩, ⟨"b".data, 70, 0, 0⟩] := by
    simp [sortRowsDesc, jsSort, insertOrd]
    norm_num
  rw [hsort]
  simp [calculateRowBoundaries, ROW_TOLERANCE, c1rowA, c1rowB]
  norm_num

theorem c1mem_a : c1val ∈ extractRowValues c1items c1rowA c1locA := by
  refine (mem_extractRowValues _ _ _ _).mpr ⟨⟨"v".data, 1000, 85⟩, by simp [c1items], ?_, by simp [c1val]⟩
  simp [keepItem, c1rowA, c1locA, isKeyComponent, jsTrim, containsSub, strIndexOf, isPrefixList,
    stripWs, isWsChar, splitWs, splitWsAux, KEY_EXCLUSION_TOLERANCE, MIN_VALUE_OFFSET]
  norm_num

theorem c1mem_b : c1val ∈ extractRowValues c1items c1rowB c1locB := by
  refine (mem_extractRowValues _ _ _ _).mpr ⟨⟨"v".data, 1000, 85⟩, by simp [c1items], ?_, by simp [c1val]⟩
  simp [keepItem, c1rowB, c1locB, isKeyComponent, jsTrim, containsSub, strIndexOf, isPrefixList,
    stripWs, isWsChar, splitWs, splitWsAux, KEY_EXCLUSION_TOLERANCE, MIN_VALUE_OFFSET]
  norm_num

/-- C1 is false as stated: in this parse, the two row descriptors produced
by sorting and `calculateRowBoundaries` are distinct, each key is located at
its own fragment, and the fragment `("v", x=1000, y=85)` passes the
`extractRowValues` inclusion test of both rows (85 is the shared band
boundary), so it is attributed to both rows. -/
theorem claim1_counterexample :
    calculateRowBoundaries (sortRowsDesc (locatedRows c1items c1keys)) = [c1rowA, c1rowB] ∧
    c1rowA ≠ c1rowB ∧
    findKeyInItems c1items c1rowA.key = some c1locA ∧
    findKeyInItems c1items c1rowB.key = some c1locB ∧
    c1val ∈ extractRowValues c1items c1rowA c1locA ∧
    c1val ∈ extractRowValues c1items c1rowB c1locB :=
  ⟨c1rows_eval, by decide, by decide, by decide, c1mem_a, c1mem_b⟩

/-- Witness for the amended C1 at the concrete counterexample input: the
doubly-attributed fragment indeed sits exactly on the shared boundary. -/
theorem claim1_witness : c1val.y = c1rowA.minY ∧ c1rowB.maxY = c1rowA.minY := by
  have hlen : (calculateRowBoundaries (sortRowsDesc (locatedRows c1items c1keys))).length = 2 := by
    rw [c1rows_eval]
    rfl
  refine claim1_overlap_only_at_shared_edge c1items (locatedRows c1items c1keys) 0 1
    (by norm_num) (by rw [hlen]; norm_num) c1rowA c1rowB ?_ ?_ c1locA c1locB c1val c1mem_a c1mem_b
  · rw [c1rows_eval]
    rfl
  · rw [c1rows_eval]
    rfl

/-! ## Reading-order sorter -/

theorem readingCmp_neg (a b : ExtractedValue) : readingCmp b a = -readingCmp a b := by
  unfold readingCmp
  rw [abs_sub_comm]
  split
  · ring
  · ring

theorem c5sort_eval : sortValuesInReadingOrder c5vals = c5vals := by
  have h1 : insertOrd (fun a b => decide (readingCmp a b ≤ 0))
      (⟨"q".data, 1, 3⟩ : ExtractedValue) [⟨"r".data, 2, 6⟩] =
      [⟨"q".data, 1, 3⟩, ⟨"r".data, 2, 6⟩] := by
    rw [insertOrd, if_pos]
    norm_num [readingCmp]
  have h2 : insertOrd (fun a b => decide (readingCmp a b ≤ 0))
      (⟨"p".data, 0, 0⟩ : ExtractedValue) [⟨"q".data, 1, 3⟩, ⟨"r".data, 2, 6⟩] =
      [⟨"p".data, 0, 0⟩, ⟨"q".data, 1, 3⟩, ⟨"r".data, 2, 6⟩] := by
    rw [insertOrd, if_pos]
    norm_num [readingCmp]
  show insertOrd _ _ (insertOrd _ _ (insertOrd _ _ (jsSort _ []))) = _
  rw [jsSort, insertOrd, h1, h2]
  rfl

/-- C5 is false as stated: on the chain of near-ties `y = 0, 3, 6` the sort
comparator is not transitive (0–3 and 3–6 are same-line pairs ordered by
`x`, while 0–6 is not same-line), the sorter returns the input order, and
the pair at positions 0 and 2 differs by more than 3 in `y` yet is in
ascending — not descending — `y` order.  (No output order could satisfy the
claim on this input.) -/
theorem claim5_counterexample : ¬ readingOrderOk (sortValuesInReadingOrder c5vals) := by
  intro h
  rw [c5sort_eval] at h
  have h02 := (h 0 2 (by norm_num [c5vals]) (by norm_num [c5vals]) (by norm_num)).1
  simp [c5vals] at h02
  norm_num at h02

/-- C5 (amended): for a collection in which every two values either share
the same `y` or differ by more than 3 in `y` (no chains of near-ties, so
the comparator is consistent), the sorted output puts every pair that is
more than 3 apart in `y` in strictly descending `y` order and every
same-line pair in ascending `x` order. -/
theorem claim5_reading_order_amended (values : List ExtractedValue)
    (hsep : ∀ a ∈ values, ∀ b ∈ values, a.y = b.y ∨ |a.y - b.y| > 3) :
    readingOrderOk (sortValuesInReadingOrder values) := by
  have hp := jsSort_pairwise (fun a b => decide (readingCmp a b ≤ 0)) values
    (by
      intro a _ b _
      rcases le_or_lt (readingCmp a b) 0 with h | h
      · left; simpa using h
      · right
        have hn := readingCmp_neg a b
        simp only [decide_eq_true_eq]
        rw [hn]
        linarith)
    (by
      intro a ha b hb c hc hab hbc
      simp only [decide_eq_true_eq] at hab hbc ⊢
      have D1 : a.y = b.y ∨ a.y - b.y > 3 := by
        rcases hsep a ha b hb with h | h
        · exact Or.inl h
        · right
          unfold readingCmp at hab
          rw [if_pos h] at hab
          rcases abs_cases (a.y - b.y) with ⟨he, _⟩ | ⟨he, _⟩ <;> linarith
      have D2 : b.y = c.y ∨ b.y - c.y > 3 := by
        rcases hsep b hb c hc with h | h
        · exact Or.inl h
        · right
          unfold readingCmp at hbc
          rw [if_pos h] at hbc
          rcases abs_cases (b.y - c.y) with ⟨he, _⟩ | ⟨he, _⟩ <;> linarith
      rcases D1 with h1 | h1 <;> rcases D2 with h2 | h2
      · unfold readingCmp at hab hbc ⊢
        rw [if_neg (by rw [h1]; simp)] at hab
        rw [if_neg (by rw [h2]; simp)] at hbc
        rw [if_neg (by rw [h1, h2]; simp)]
        linarith
      · unfold readingCmp
        rw [if_pos (by
          have hpos : (0:ℚ) < a.y - c.y := by linarith
          rw [abs_of_pos hpos]; linarith)]
        linarith
      · unfold readingCmp
        rw [if_pos (by
          have hpos : (0:ℚ) < a.y - c.y := by linarith
          rw [abs_of_pos hpos]; linarith)]
        linarith
      · unfold readingCmp
        rw [if_pos (by
          have hpos : (0:ℚ) < a.y - c.y := by linarith
          rw [abs_of_pos hpos]; linarith)]
        linarith)
  have hp' : List.Pairwise (fun x y => decide (readingCmp x y ≤ 0) = true)
      (sortValuesInReadingOrder values) := hp
  intro i j hi hj hij
  have hij' := List.pairwise_iff_getElem.mp hp' i j hi hj hij
  simp only [decide_eq_true_eq] at hij'
  constructor
  · intro hfar
    unfold readingCmp at hij'
    rw [if_pos hfar] at hij'
    have habs : (sortValuesInReadingOrder values)[i].y - (sortValuesInReadingOrder values)[j].y > 3 := by
      rcases abs_cases ((sortValuesInReadingOrder values)[i].y -
        (sortValuesInReadingOrder values)[j].y) with ⟨he, _⟩ | ⟨he, _⟩ <;> linarith
    linarith
  · intro hnear
    unfold readingCmp at hij'
    rw [if_neg (by linarith)] at hij'
    linarith

/-- Witness for the amended C5 on a concrete well-separated input. -/
theorem claim5_witness :
    readingOrderOk (sortValuesInReadingOrder [⟨"p".data, 5, 10⟩, ⟨"q".data, 1, 0⟩]) := by
  apply claim5_reading_order_amended
  intro a ha b hb
  simp only [List.mem_cons, List.not_mem_nil, or_false] at ha hb
  rcases ha with rfl | rfl <;> rcases hb with rfl | rfl <;> norm_num

/-! ## Key locator -/

theorem findKey_of_exact (items : List TextItem) (key : Str) (k : TextItem)
    (h : items.find? (matchExact key) = some k) :
    findKeyInItems items key = some ⟨k, k.y, k.x⟩ := by
  unfold findKeyInItems
  rw [h]

theorem findKey_of_normalized (items : List TextItem) (key : Str) (k : TextItem)
    (h1 : items.find? (matchExact key) = none)
    (h2 : items.find? (matchNormalized key) = some k) :
    findKeyInItems items key = some ⟨k, k.y, k.x⟩ := by
  unfold findKeyInItems
  rw [h1, h2]

theorem findKey_of_firstWord (items : List TextItem) (key : Str) (k : TextItem)
    (h1 : items.find? (matchExact key) = none)
    (h2 : items.find? (matchNormalized key) = none)
    (hm : (splitWs key).length > 1)
    (h3 : items.find? (matchFirstWord key) = some k) :
    findKeyInItems items key = some ⟨k, k.y, k.x⟩ := by
  unfold findKeyInItems
  rw [h1, h2, if_pos hm, h3]
  rfl

theorem findKey_none_cases (items : List TextItem) (key : Str)
    (h1 : items.find? (matchExact key) = none)
    (h2 : items.find? (matchNormalized key) = none)
    (h3 : (splitWs key).length > 1 → items.find? (matchFirstWord key) = none) :
    findKeyInItems items key = none := by
  unfold findKeyInItems
  rw [h1, h2]
  by_cases hm : (splitWs key).length > 1
  · rw [if_pos hm, h3 hm]
    rfl
  · rw [if_neg hm]

/-- C6: the key locator tries the three matching strategies in order, first
success winning — (1) raw text contains the key, (2) whitespace-stripped
text contains the whitespace-stripped key, (3) only for a multi-word key,
trimmed text equals or contains the key's first word — and returns `none`
exactly when no fragment matches under any applicable strategy. -/
theorem claim6_key_locator_strategies (items : List TextItem) (key : Str) :
    (findKeyInItems items key = none ↔
      ∀ item ∈ items, matchExact key item = false ∧ matchNormalized key item = false ∧
        ((splitWs key).length > 1 → matchFirstWord key item = false)) ∧
    ((∃ item ∈ items, matchExact key item = true) →
      ∃ keyItem, items.find? (matchExact key) = some keyItem ∧
        findKeyInItems items key = some ⟨keyItem, keyItem.y, keyItem.x⟩) ∧
    ((∀ item ∈ items, matchExact key item = false) →
      (∃ item ∈ items, matchNormalized key item = true) →
      ∃ keyItem, items.find? (matchNormalized key) = some keyItem ∧
        findKeyInItems items key = some ⟨keyItem, keyItem.y, keyItem.x⟩) ∧
    ((∀ item ∈ items, matchExact key item = false ∧ matchNormalized key item = false) →
      (splitWs key).length > 1 →
      (∃ item ∈ items, matchFirstWord key item = true) →
      ∃ keyItem, items.find? (matchFirstWord key) = some keyItem ∧
        findKeyInItems items key = some ⟨keyItem, keyItem.y, keyItem.x⟩) := by
  refine ⟨⟨?_, ?_⟩, ?_, ?_, ?_⟩
  · intro hnone item hitem
    refine ⟨?_, ?_, ?_⟩
    · cases h : matchExact key item with
      | false => rfl
      | true =>
        rcases Option.isSome_iff_exists.mp (List.find?_isSome.mpr ⟨item, hitem, h⟩) with ⟨k, hk⟩
        rw [findKey_of_exact items key k hk] at hnone
        exact absurd hnone (by simp)
    · cases h : matchNormalized key item with
      | false => rfl
      | true =>
        cases h1 : items.find? (matchExact key) with
        | some k =>
          rw [findKey_of_exact items key k h1] at hnone
          exact absurd hnone (by simp)
        | none =>
          rcases Option.isSome_iff_exists.mp (List.find?_isSome.mpr ⟨item, hitem, h⟩) with ⟨k, hk⟩
          rw [findKey_of_normalized items key k h1 hk] at hnone
          exact absurd hnone (by simp)
    · intro hm
      cases h : matchFirstWord key item with
      | false => rfl
      | true =>
        cases h1 : items.find? (matchExact key) with
        | some k =>
          rw [findKey_of_exact items key k h1] at hnone
          exact absurd hnone (by simp)
        | none =>
          cases h2 : items.find? (matchNormalized key) with
          | some k =>
            rw [findKey_of_normalized items key k h1 h2] at hnone
            exact absurd hnone (by simp)
          | none =>
            rcases Option.isSome_iff_exists.mp (List.find?_isSome.mpr ⟨item, hitem, h⟩) with ⟨k, hk⟩
            rw [findKey_of_firstWord items key k h1 h2 hm hk] at hnone
            exact absurd hnone (by simp)
  · intro hall
    refine findKey_none_cases items key ?_ ?_ ?_
    · exact List.find?_eq_none.mpr (fun x hx => by simp [(hall x hx).1])
    · exact List.find?_eq_none.mpr (fun x hx => by simp [(hall x hx).2.1])
    · intro hm
      exact List.find?_eq_none.mpr (fun x hx => by simp [(hall x hx).2.2 hm])
  · rintro ⟨item, hitem, h⟩
    rcases Option.isSome_iff_exists.mp (List.find?_isSome.mpr ⟨item, hitem, h⟩) with ⟨k, hk⟩
    exact ⟨k, hk, findKey_of_exact items key k hk⟩
  · rintro hall ⟨item, hitem, h⟩
    have h1 : items.find? (matchExact key) = none :=
      List.find?_eq_none.mpr (fun x hx => by simp [hall x hx])
    rcases Option.isSome_iff_exists.mp (List.find?_isSome.mpr ⟨item, hitem, h⟩) with ⟨k, hk⟩
    exact ⟨k, hk, findKey_of_normalized items key k h1 hk⟩
  · rintro hall hm ⟨item, hitem, h⟩
    have h1 : items.find? (matchExact key) = none :=
      List.find?_eq_none.mpr (fun x hx => by simp [(hall x hx).1])
    have h2 : items.find? (matchNormalized key) = none :=
      List.find?_eq_none.mpr (fun x hx => by simp [(hall x hx).2])
    rcases Option.isSome_iff_exists.mp (List.find?_isSome.mpr ⟨item, hitem, h⟩) with ⟨k, hk⟩
    exact ⟨k, hk, findKey_of_firstWord items key k h1 h2 hm hk⟩

/-- Witness for C6: a whitespace-garbled fragment is found by strategy 2
for the compound key `"기준층 면적"`, and a fragment collection with no
match yields `none`. -/
theorem claim6_witness :
    (∃ keyItem, [(⟨"기준 층면적".data, 3, 4⟩ : TextItem)].find?
        (matchNormalized "기준층 면적".data) = some keyItem ∧
      findKeyInItems [⟨"기준 층면적".data, 3, 4⟩] "기준층 면적".data =
        some ⟨keyItem, keyItem.y, keyItem.x⟩) ∧
    findKeyInItems [⟨"hello".data, 1, 2⟩] "주소".data = none := by
  constructor
  · exact (claim6_key_locator_strategies [⟨"기준 층면적".data, 3, 4⟩] "기준층 면적".data).2.2.1
      (by decide) ⟨⟨"기준 층면적".data, 3, 4⟩, by decide, by decide⟩
  · exact (claim6_key_locator_strategies [⟨"hello".data, 1, 2⟩] "주소".data).1.mpr (by decide)

/-! ## Key-exclusion invariant -/

/-- C7: the key's own matched fragment, and every fragment whose trimmed
text equals or contains the key's first word and whose `y` is within the
exclusion tolerance (8) of the row's key `y`, is excluded from that row's
extracted values, and hence also from the sorted value list that is joined
into the row's value text. -/
theorem claim7_key_exclusion (items : List TextItem) (row : RowBoundary)
    (keyLocation : KeyLocation) (item : TextItem) (hmem : item ∈ items)
    (hexcl : item = keyLocation.item ∨
      (isKeyComponent ((splitWs row.key).headD []) item = true ∧
        |item.y - row.y| ≤ KEY_EXCLUSION_TOLERANCE)) :
    (⟨item.str, item.x, item.y⟩ : ExtractedValue) ∉ extractRowValues items row keyLocation ∧
    (⟨item.str, item.x, item.y⟩ : ExtractedValue) ∉
      sortValuesInReadingOrder (extractRowValues items row keyLocation) := by
  have hmain : (⟨item.str, item.x, item.y⟩ : ExtractedValue) ∉
      extractRowValues items row keyLocation := by
    intro hmem'
    obtain ⟨it2, hit2, hkeep, he⟩ := (mem_extractRowValues _ _ _ _).mp hmem'
    have heq : it2 = item := by
      obtain ⟨s, x, y⟩ := item
      obtain ⟨s2, x2, y2⟩ := it2
      simp only [ExtractedValue.mk.injEq] at he
      simp [he.1, he.2.1, he.2.2]
    subst heq
    simp only [keepItem, Bool.and_eq_true, Bool.not_eq_true', decide_eq_true_eq] at hkeep
    rcases hexcl with he | ⟨hc, ht⟩
    · rw [beq_eq_false_iff_ne] at hkeep
      exact hkeep.1.1.1 he
    · have hfalse := hkeep.1.1.2
      rw [hc, decide_eq_true ht] at hfalse
      simp at hfalse
  exact ⟨hmain, fun h => hmain ((mem_jsSort _ _ _).mp h)⟩

/-- Witness for C7: the key's own fragment is absent from the extracted
values of its row. -/
theorem claim7_witness :
    (⟨"k".data, 0, 50⟩ : ExtractedValue) ∉
      extractRowValues [⟨"k".data, 0, 50⟩, ⟨"w".data, 100, 50⟩]
        ⟨"k".data, 50, 35, 65⟩ ⟨⟨"k".data, 0, 50⟩, 50, 0⟩ ∧
    (⟨"k".data, 0, 50⟩ : ExtractedValue) ∉
      sortValuesInReadingOrder (extractRowValues [⟨"k".data, 0, 50⟩, ⟨"w".data, 100, 50⟩]
        ⟨"k".data, 50, 35, 65⟩ ⟨⟨"k".data, 0, 50⟩, 50, 0⟩) :=
  claim7_key_exclusion _ _ _ _ (by simp) (Or.inl rfl)

/-! ## Fallbacks and output formatting -/

theorem jsTrim_eq_nil_iff (s : Str) : jsTrim s = [] ↔ ∀ c ∈ s, isWsChar c = true := by
  unfold jsTrim
  rw [List.reverse_eq_nil_iff, List.dropWhile_eq_nil_iff]
  constructor
  · intro h c hc
    rcases List.mem_append.mp ((List.takeWhile_append_dropWhile (p := isWsChar) (l := s)) ▸ hc) with
      hc' | hc'
    · exact List.mem_takeWhile_imp hc'
    · exact h c (List.mem_reverse.mpr hc')
  · intro h c hc
    exact h c ((List.dropWhile_sublist isWsChar).mem (List.mem_reverse.mp hc))

/-- C10: for a template name that does not match the overview regex and a
non-empty fragment collection, the geometric dispatcher returns the fragment
texts — with empty and whitespace-only fragments removed — joined by single
spaces, with no key-value structuring. -/
theorem claim10_plain_concatenation (templateName : Str) (items : List TextItem)
    (hname : sectionMatch (toLowerStr templateName) = false) (hne : items ≠ []) :
    postProcessText templateName items =
      joinSpace ((items.map (·.str)).filter fun s => s.any fun c => !isWsChar c) := by
  unfold postProcessText
  rw [if_neg (by simp [List.isEmpty_iff, hne]), if_neg (by simp [hname])]
  congr 1
  apply List.filter_congr
  intro s _
  cases hx : (jsTrim s).isEmpty with
  | false =>
    rw [List.isEmpty_eq_false] at hx
    have hex : ∃ c ∈ s, (!isWsChar c) = true := by
      by_contra hh
      push_neg at hh
      apply hx
      rw [jsTrim_eq_nil_iff]
      intro c hc
      have h2 := hh c hc
      simpa using h2
    simp only [Bool.not_false]
    exact (List.any_eq_true.mpr hex).symm
  | true =>
    rw [List.isEmpty_iff, jsTrim_eq_nil_iff] at hx
    simp only [Bool.not_true]
    symm
    rw [List.any_eq_false]
    intro c hc
    simp [hx c hc]

/-- Witness for C10 on a concrete non-overview zone. -/
theorem claim10_witness :
    postProcessText "rent".data [⟨"a b".data, 0, 0⟩, ⟨"  ".data, 0, 0⟩, ⟨"c".data, 0, 0⟩] =
      "a b c".data := by
  rw [claim10_plain_concatenation _ _ (by decide) (by decide)]
  decide

/-- C9: if no catalog key is located, `parseTableByRows` returns the
space-joined fragment texts and `parseWithKeywords` returns the pre-cleaned
text, exactly. -/
theorem claim9_no_key_fallback :
    (∀ (items : List TextItem) (keys : List Str), items ≠ [] →
      (∀ key ∈ keys, findKeyInItems items key = none) →
      parseTableByRows items keys = joinSpace (items.map (·.str))) ∧
    (∀ (rawText : Str) (primaryKeys : List Str), rawText ≠ [] →
      (∀ key ∈ primaryKeys,
        KeywordSlice.execAll (KeywordSlice.jsRegexLiteral key) (KeywordSlice.kwCleaned rawText) = []) →
      KeywordSlice.parseWithKeywords rawText primaryKeys = KeywordSlice.preCleanText rawText) := by
  constructor
  · intro items keys hne hnone
    unfold parseTableByRows
    have hloc : locatedRows items keys = [] := by
      unfold locatedRows
      rw [List.filterMap_eq_nil_iff]
      intro key hkey
      rw [hnone key hkey]
      rfl
    rw [if_neg (by simp [List.isEmpty_iff, hne]), hloc]
    rfl
  · intro raw keys _ hnone
    unfold KeywordSlice.parseWithKeywords
    have hraw : KeywordSlice.foundKeysRaw keys (KeywordSlice.kwCleaned raw) = [] := by
      unfold KeywordSlice.foundKeysRaw
      induction keys with
      | nil => rfl
      | cons k t ih =>
        rw [List.flatMap_cons, hnone k (by simp), ih (fun key hkey => hnone key (by simp [hkey]))]
        rfl
    have huniq : KeywordSlice.kwUnique raw keys = [] := by
      unfold KeywordSlice.kwUnique
      rw [hraw]
      rfl
    rw [huniq]
    rfl

/-- Witness for C9 on inputs containing no catalog key. -/
theorem claim9_witness :
    parseTableByRows [⟨"hello".data, 1, 2⟩] ["주소".data] = "hello".data ∧
    KeywordSlice.parseWithKeywords "hello".data ["주소".data] = "hello".data := by
  constructor
  · rw [claim9_no_key_fallback.1 [⟨"hello".data, 1, 2⟩] ["주소".data] (by decide) (by decide)]
    decide
  · rw [claim9_no_key_fallback.2 "hello".data ["주소".data] (by decide) (by decide)]
    decide

theorem filterMap_line_format {α : Type} (keys : List α) (g : α → Option Str)
    (disp : α → Str → Str) :
    (keys.filterMap fun k =>
        match g k with
        | some v => if v.isEmpty then none else some (disp k v)
        | none => none) =
      (keys.filter fun k => !((g k).getD []).isEmpty).map fun k => disp k ((g k).getD []) := by
  induction keys with
  | nil => rfl
  | cons k t ih =>
    cases hg : g k with
    | none =>
      rw [List.filterMap_cons_none (by simp [hg]), List.filter_cons_of_neg (by simp [hg])]
      exact ih
    | some v =>
      cases hv : v.isEmpty with
      | true =>
        rw [List.isEmpty_iff] at hv
        subst hv
        rw [List.filterMap_cons_none (by simp [hg]), List.filter_cons_of_neg (by simp [hg])]
        exact ih
      | false =>
        rw [List.filterMap_cons, List.filter_cons_of_pos (by simp [hg, hv]), List.map_cons, ih]
        simp [hg, hv]

theorem filterMap_id_map {α β : Type _} (f : α → Option β) (l : List α) :
    (l.map f).filterMap id = l.filterMap f := by
  induction l with
  | nil => rfl
  | cons a t ih => cases hf : f a <;> simp [List.filterMap_cons, hf, ih]

/-- C8: on the structured path (non-empty input, at least one key located /
found), each parser's output is exactly one `"<key>: <value>"` line per
catalog key that has a non-empty extracted value, in catalog order — keys
with an empty or absent value contribute no line. -/
theorem claim8_catalog_order :
    (∀ (items : List TextItem) (keys : List Str), items ≠ [] → locatedRows items keys ≠ [] →
      parseTableByRows items keys =
        joinLines ((keys.filter fun k => !((tableResults items keys k).getD []).isEmpty).map
          fun k => k ++ ':' :: ' ' :: (tableResults items keys k).getD [])) ∧
    (∀ (rawText : Str) (primaryKeys : List Str), KeywordSlice.kwUnique rawText primaryKeys ≠ [] →
      KeywordSlice.parseWithKeywords rawText primaryKeys =
        joinLines ((primaryKeys.filter fun k =>
            !((KeywordSlice.kwResultsOf rawText primaryKeys k).getD []).isEmpty).map
          fun k => k ++ ':' :: ' ' ::
            jsTrim (collapseWsAll ((KeywordSlice.kwResultsOf rawText primaryKeys k).getD [])))) := by
  constructor
  · intro items keys h1 h2
    unfold parseTableByRows
    rw [if_neg (by simp [List.isEmpty_iff, h1]), if_neg (by simp [List.isEmpty_iff, h2])]
    congr 1
    rw [filterMap_id_map]
    exact filterMap_line_format keys (tableResults items keys) (fun k v => k ++ ':' :: ' ' :: v)
  · intro raw keys h
    unfold KeywordSlice.parseWithKeywords
    rw [if_neg (by simp [List.isEmpty_iff, h])]
    congr 1
    rw [filterMap_id_map]
    exact filterMap_line_format keys (KeywordSlice.kwResultsOf raw keys)
      (fun k v => k ++ ':' :: ' ' :: jsTrim (collapseWsAll v))

/-- Witness for C8: the keys appear in the text in the order `b`, `a`, but
the output lines follow the catalog order `a`, `b`. -/
theorem claim8_witness :
    KeywordSlice.parseWithKeywords "b x a y".data ["a".data, "b".data] = "a: y\nb: x".data := by
  rw [claim8_catalog_order.2 "b x a y".data ["a".data, "b".data] (by decide)]
  decide

/-! ## Keyword offsets -/

theorem isPrefixList_append (pat r : Str) : isPrefixList pat (pat ++ r) = true := by
  induction pat with
  | nil => rfl
  | cons c p ih => simp [isPrefixList, ih]

theorem strIndexOf_self_append (pat r : Str) : strIndexOf (pat ++ r) pat = some 0 := by
  unfold strIndexOf
  rw [if_pos (isPrefixList_append pat r)]

theorem replaceFirst_self_append (k r : Str) : replaceFirst (k ++ r) k = r := by
  unfold replaceFirst
  rw [strIndexOf_self_append]
  simp [List.drop_left]

theorem execAll_take_one (pat text : Str) (h : pat ≠ []) :
    (KeywordSlice.execAll pat text).take 1 = (strIndexOf text pat).toList := by
  unfold KeywordSlice.execAll
  rw [if_neg (by simp [List.isEmpty_iff, h])]
  unfold KeywordSlice.execAllAux
  rw [List.drop_zero]
  cases hf : strIndexOf text pat with
  | none => rfl
  | some j => simp

/-- Suffix-generalised characterisation of the first-occurrence filter of
`uniqueFoundKeys`: among the entries of the suffix of `full` starting at
position `n` (paired with their absolute indices), the ones kept by the
`findIndex`-based filter and having key `k` are: none, if `k` already occurs
before position `n`; otherwise the first `k`-entry of the suffix. -/
theorem uniqueFound_filter_take (full : List KeywordSlice.FoundKey) (k : Str) :
    ∀ (l : List KeywordSlice.FoundKey) (n : Nat), full.drop n = l →
      ((((List.enumFrom n l).filter fun p =>
          (full.findIdx fun t => t.key == p.2.key) == p.1).map Prod.snd).filter
        fun f => f.key == k) =
      if (full.take n).any (fun t => t.key == k) then []
      else (l.filter fun f => f.key == k).take 1 := by
  intro l
  induction l with
  | nil =>
    intro n _
    cases h : (full.take n).any (fun t => t.key == k) <;> simp
  | cons v rest ih =>
    intro n hdrop
    have hlen : n < full.length := by
      by_contra hcon
      push_neg at hcon
      rw [List.drop_eq_nil_of_le hcon] at hdrop
      exact absurd hdrop (by simp)
    have h0 : full[n]? = some v := by
      have h := List.getElem?_drop full n 0
      rw [hdrop] at h
      simpa using h.symm
    have hget : full[n] = v := by
      rw [List.getElem?_eq_getElem hlen] at h0
      exact Option.some.inj h0
    have hdrop1 : full.drop (n+1) = rest := by
      have h := List.drop_drop 1 n full
      rw [hdrop] at h
      simpa [Nat.add_comm] using h.symm
    have htake1 : full.take (n+1) = full.take n ++ [v] := by
      rw [List.take_succ, h0]
      rfl
    have hanysucc : (full.take (n+1)).any (fun t => t.key == k) =
        ((full.take n).any (fun t => t.key == k) || (v.key == k)) := by
      rw [htake1, List.any_append]
      simp
    have hearly : ∀ m, m < n → full[m]? = (full.take n)[m]? := by
      intro m hm
      rw [List.getElem?_take]
      rw [if_pos hm]
    rw [List.enumFrom_cons, List.filter_cons]
    by_cases hseen : (full.take n).any (fun t => t.key == k) = true
    · rw [if_pos hseen]
      obtain ⟨x, hx, hxk⟩ := List.any_eq_true.mp hseen
      obtain ⟨⟨m, hm⟩, hxe⟩ := List.mem_iff_get.mp hx
      have hm' : m < n := by
        have := hm
        rw [List.length_take] at this
        omega
      have hfullm : full[m] = x := by
        rw [List.get_eq_getElem] at hxe
        rw [← hxe]
        exact (List.getElem_take full).symm
      by_cases hv : (v.key == k) = true
      · have hvk : v.key = k := by simpa using hv
        have hfi : (full.findIdx fun t => t.key == v.key) ≠ n := by
          intro hfe
          have hchar := (List.findIdx_eq (p := fun t => t.key == v.key) hlen).mp hfe
          have hm2 := hchar.2 m (by omega)
          rw [hfullm, hvk] at hm2
          rw [hm2] at hxk
          exact absurd hxk (by simp)
        rw [if_neg (by simpa using hfi)]
        have hrec := ih (n+1) hdrop1
        rw [hanysucc, hseen] at hrec
        simpa using hrec
      · have hrec := ih (n+1) hdrop1
        rw [hanysucc, hseen] at hrec
        by_cases hkept : ((full.findIdx fun t => t.key == v.key) == n) = true
        · rw [if_pos hkept, List.map_cons, List.filter_cons_of_neg (by simpa using hv)]
          simpa using hrec
        · rw [if_neg (by simpa using hkept)]
          simpa using hrec
    · have hany : (full.take n).any (fun t => t.key == k) = false := by
        cases h2 : (full.take n).any (fun t => t.key == k) with
        | true => exact absurd h2 hseen
        | false => rfl
      have hcond : ¬ (((full.take n).any fun t => t.key == k) = true) := by
        simp [hany]
      rw [if_neg hcond]
      have hnone : ∀ m (hm : m < n), (full[m].key == k) = false := by
        intro m hm
        rw [List.any_eq_false] at hany
        have hml : m < (full.take n).length := by
          rw [List.length_take]
          omega
        have hmem : full[m] ∈ full.take n := by
          have h1 := hearly m hm
          rw [List.getElem?_eq_getElem (show m < full.length by omega),
            List.getElem?_eq_getElem hml] at h1
          rw [Option.some.inj h1]
          exact List.getElem_mem _
        have := hany _ hmem
        simpa using this
      have hrec := ih (n+1) hdrop1
      rw [hanysucc, hany, Bool.false_or] at hrec
      by_cases hv : (v.key == k) = true
      · have hvk : v.key = k := by simpa using hv
        have hfi : (full.findIdx fun t => t.key == v.key) = n := by
          rw [List.findIdx_eq hlen]
          refine ⟨by rw [hget]; simp, ?_⟩
          intro m hm
          have := hnone m hm
          rw [hvk]
          simpa using this
        rw [if_pos (by simp [hfi]), List.map_cons,
          List.filter_cons_of_pos (by simpa using hv),
          List.filter_cons_of_pos (by simpa using hv)]
        rw [hrec, hv]
        simp
      · rw [List.filter_cons_of_neg (by simpa using hv)]
        by_cases hkept : ((full.findIdx fun t => t.key == v.key) == n) = true
        · rw [if_pos hkept, List.map_cons, List.filter_cons_of_neg (by simpa using hv)]
          rw [hrec, if_neg hv]
        · rw [if_neg (by simpa using hkept), hrec, if_neg hv]

/-- The deduplication step keeps, for each key, exactly the first collected
occurrence. -/
theorem uniqueFoundKeys_filter (l : List KeywordSlice.FoundKey) (k : Str) :
    (KeywordSlice.uniqueFoundKeys l).filter (fun f => f.key == k) =
      (l.filter fun f => f.key == k).take 1 := by
  have h := uniqueFound_filter_take l k l 0 (by simp)
  rw [show l.take 0 = [] from rfl, List.any_nil, if_neg (by simp)] at h
  rw [List.filter_map, List.filter_filter] at h
  unfold KeywordSlice.uniqueFoundKeys
  rw [List.filter_map, List.filter_filter]
  exact h

/-- Among the raw collected occurrences, the entries for a catalog key `k`
start with `⟨k, i⟩` for the first regex match index `i` of `k`, if any. -/
theorem foundKeysRaw_filter (keys : List Str) (text : Str) (k : Str) (hk : k ∈ keys) :
    ((KeywordSlice.foundKeysRaw keys text).filter fun f => f.key == k).take 1 =
      ((KeywordSlice.execAll (KeywordSlice.jsRegexLiteral k) text).map
        fun i => (⟨k, i⟩ : KeywordSlice.FoundKey)).take 1 := by
  induction keys with
  | nil => cases hk
  | cons k' t ih =>
    unfold KeywordSlice.foundKeysRaw
    rw [List.flatMap_cons, List.filter_append]
    by_cases he : k' = k
    · subst he
      have hb : ((KeywordSlice.execAll (KeywordSlice.jsRegexLiteral k') text).map
          fun i => (⟨k', i⟩ : KeywordSlice.FoundKey)).filter (fun f => f.key == k') =
          (KeywordSlice.execAll (KeywordSlice.jsRegexLiteral k') text).map
            fun i => (⟨k', i⟩ : KeywordSlice.FoundKey) := by
        rw [List.filter_eq_self]
        intro a ha
        obtain ⟨i, _, rfl⟩ := List.mem_map.mp ha
        simp
      rw [hb]
      cases hex : (KeywordSlice.execAll (KeywordSlice.jsRegexLiteral k') text) with
      | nil =>
        simp only [hex, List.map_nil, List.nil_append]
        by_cases hkt : k' ∈ t
        · have := ih hkt
          unfold KeywordSlice.foundKeysRaw at this
          rw [this, hex]
          rfl
        · have hnil : ((t.flatMap fun key =>
              (KeywordSlice.execAll (KeywordSlice.jsRegexLiteral key) text).map
                fun i => (⟨key, i⟩ : KeywordSlice.FoundKey)).filter
              fun f => f.key == k') = [] := by
            rw [List.filter_eq_nil_iff]
            intro a ha
            obtain ⟨key, hkey, ha⟩ := List.mem_flatMap.mp ha
            obtain ⟨i, _, rfl⟩ := List.mem_map.mp ha
            simp only [beq_iff_eq]
            intro hc
            exact hkt (hc ▸ hkey)
          rw [hnil]
      | cons j js =>
        rw [List.map_cons, List.cons_append]
        rfl
    · have hnilb : ((KeywordSlice.execAll (KeywordSlice.jsRegexLiteral k') text).map
          (fun i => (⟨k', i⟩ : KeywordSlice.FoundKey))).filter (fun f => f.key == k) = [] := by
        rw [List.filter_eq_nil_iff]
        intro a ha
        obtain ⟨i, _, rfl⟩ := List.mem_map.mp ha
        simp only [beq_iff_eq]
        exact he
      rw [hnilb, List.nil_append]
      have hkt : k ∈ t := by
        rcases List.mem_cons.mp hk with h | h
        · exact absurd h.symm he
        · exact h
      have := ih hkt
      unfold KeywordSlice.foundKeysRaw at this
      exact this

/-- C4 is false as stated: for the catalog key `"연면적(GFA)"`, which is
compiled as a regular expression in which the parentheses are grouping
metacharacters, the parser locates no occurrence in a cleaned text that
contains the key verbatim as a substring at index 0. -/
theorem claim4_counterexample :
    locatedOffsets ["연면적(GFA)".data] "연면적(GFA): 100".data "연면적(GFA)".data = [] ∧
    strIndexOf "연면적(GFA): 100".data "연면적(GFA)".data = some 0 := by
  constructor
  · decide
  · decide

/-- C4 (amended): the located keyword offsets are exactly the first
occurrence index of the key's regex literal — the key with its grouping
parentheses removed — in the cleaned text (one offset per key, duplicates
dropped), not of the key string itself; and removing the key substring from
a sliced span removes exactly the first literal occurrence of the key (in
particular a leading key prefix). -/
theorem claim4_offsets_amended (primaryKeys : List Str) (text : Str) (key : Str)
    (hk : key ∈ primaryKeys) (hne : KeywordSlice.jsRegexLiteral key ≠ []) :
    locatedOffsets primaryKeys text key =
      (strIndexOf text (KeywordSlice.jsRegexLiteral key)).toList ∧
    ∀ r, replaceFirst (key ++ r) key = r := by
  constructor
  · unfold locatedOffsets
    rw [uniqueFoundKeys_filter, foundKeysRaw_filter primaryKeys text key hk,
      ← List.map_take, execAll_take_one _ _ hne]
    simp [Function.comp_def]
  · exact fun r => replaceFirst_self_append key r

/-- Witness for the amended C4 on a concrete text. -/
theorem claim4_witness :
    locatedOffsets ["주소".data] "열 주소: 서울".data "주소".data = [2] ∧
    replaceFirst ("주소".data ++ " 서울".data) "주소".data = " 서울".data := by
  have h := claim4_offsets_amended ["주소".data] "열 주소: 서울".data "주소".data
    (by decide) (by decide)
  constructor
  · rw [h.1]
    decide
  · exact h.2 " 서울".data
